import Mathlib

/-!
Shallow embedding of `cld_from_tukey` from
`src/statistical_analysis_reproducible_from_csv.py` (lines 44-84), the greedy
compact-letter-display (CLD) assignment over Tukey pairwise significance
results, together with the auxiliary lookup conventions it relies on.

Modelling conventions:
* `Level` is `Int` (the caller passes the integer rates 2/4/6/8; the function
  treats levels as opaque comparable dictionary keys).
* Python `float` means are modelled as `Int`: the algorithm never computes
  with means, it only compares them in the initial descending sort.
* The Python dictionaries `means_dict` and `reject_pairs` are modelled as
  association lists with first-match lookup (`lookupMean`, `lookupPair`).
* Letters are recorded internally as indices into `ascii_lowercase`
  (`letters_map[r] += ascii_lowercase[i]` becomes appending the index `i`);
  the final normalisation step (line 83) de-duplicates and sorts the indices
  and renders them through `letterOf`, which matches the char-level
  `sorted(set(...), key=ascii_lowercase.index)` whenever every index is in
  range (< 26); out-of-range indices would raise `IndexError` in Python,
  and the in-range regime is established separately (group count ≤ level
  count).
* Python's stable `sorted(..., key=mean, reverse=True)` is modelled as
  `List.insertionSort` with relation `mean b ≤ mean a`, which is likewise
  stable (equal keys keep input order) and sorts by descending mean.
* The uncaught `KeyError` that `means_dict[r]` would raise for a level with
  no recorded mean is surfaced as `CLDError.MissingStatistic`, following the
  spec's naming for that failure.
-/

/-- Treatment levels are opaque comparable keys; the repository uses the
integer rates 2, 4, 6, 8. -/
abbrev Level : Type := Int

/-- `string.ascii_lowercase`, the letter alphabet used by the algorithm. -/
def asciiLowercase : List Char :=
  ['a', 'b', 'c', 'd', 'e', 'f', 'g', 'h', 'i', 'j', 'k', 'l', 'm',
   'n', 'o', 'p', 'q', 'r', 's', 't', 'u', 'v', 'w', 'x', 'y', 'z']

/-- `ascii_lowercase[i]`; the default `!` is never consulted when `i < 26`,
which is the regime in which the Python indexing does not raise. -/
def letterOf (i : Nat) : Char := asciiLowercase.getD i '!'

/-- The `reject_pairs` dictionary: ordered-pair keys mapped to the Tukey
reject flag. -/
abbrev RejectPairs : Type := List ((Level × Level) × Bool)

/-- Dictionary lookup on `reject_pairs` (first matching key). -/
def lookupPair : RejectPairs → (Level × Level) → Option Bool
  | [], _ => none
  | (k, b) :: rest, key => if k = key then some b else lookupPair rest key

/-- The significance lookup used identically at lines 55-56 and 75-76:
`key = (r, rr) if (r, rr) in reject_pairs else (rr, r)` followed by
`reject_pairs.get(key, False)`. -/
def sigLookup (rp : RejectPairs) (r rr : Level) : Bool :=
  match lookupPair rp (r, rr) with
  | some b => b
  | none => (lookupPair rp (rr, r)).getD false

/-- The inner membership test of both passes: `r` is compatible with the
group `s` when no current member is significantly different from it
(lines 53-58 and 73-78). -/
def compatible (rp : RejectPairs) (r : Level) (s : List Level) : Bool :=
  s.all (fun rr => ! sigLookup rp r rr)

/-- The `means_dict` dictionary. -/
abbrev Means : Type := List (Level × Int)

/-- Dictionary lookup on `means_dict` (first matching key). -/
def lookupMean : Means → Level → Option Int
  | [], _ => none
  | (l, v) :: rest, key => if l = key then some v else lookupMean rest key

/-- The mean used by the sort key `lambda r: means_dict[r]`; the default is
never consulted once every level is known to have a recorded mean. -/
def meanOf (means : Means) (r : Level) : Int := (lookupMean means r).getD 0

/-- First level (in input order) whose mean is missing: the level at which
Python's `sorted(rate_levels, key=lambda r: means_dict[r], ...)` would raise
`KeyError`. -/
def firstMissingMean (means : Means) : List Level → Option Level
  | [] => none
  | l :: ls => if (lookupMean means l).isSome then firstMissingMean means ls else some l

/-- `sorted(rate_levels, key=lambda r: means_dict[r], reverse=True)`:
a stable sort by descending mean. -/
def sortDesc (m : Level → Int) (ls : List Level) : List Level :=
  List.insertionSort (fun a b => m b ≤ m a) ls

/-- The mutable state of pass 1: `letter_sets` (groups, in creation order)
and `letters_map` recorded as letter indices. -/
structure CLDState where
  groups : List (List Level)
  lmap : Level → List Nat

/-- The pass-1 scan over `enumerate(letter_sets)` starting at index `i`:
every compatible group receives `r` (there is no `break` after a placement
in the source), and the indices of the groups joined are returned in scan
order. -/
def placeIntoGroups (rp : RejectPairs) (r : Level) :
    List (List Level) → Nat → List (List Level) × List Nat
  | [], _ => ([], [])
  | s :: rest, i =>
    let pr := placeIntoGroups rp r rest (i + 1)
    if compatible rp r s then ((s ++ [r]) :: pr.1, i :: pr.2) else (s :: pr.1, pr.2)

/-- Processing of one level in pass 1 (lines 50-65): scan all groups, append
the letters of every group joined; if no group accepted `r`, append a fresh
singleton group and assign its letter. -/
def pass1Step (rp : RejectPairs) (st : CLDState) (r : Level) : CLDState :=
  let pr := placeIntoGroups rp r st.groups 0
  if pr.2.isEmpty then
    { groups := st.groups ++ [[r]],
      lmap := fun x => if x = r then st.lmap x ++ [st.groups.length] else st.lmap x }
  else
    { groups := pr.1,
      lmap := fun x => if x = r then st.lmap x ++ pr.2 else st.lmap x }

/-- Pass 1 over a list of levels, threading the state. -/
def pass1From (rp : RejectPairs) (st : CLDState) : List Level → CLDState
  | [] => st
  | r :: rs => pass1From rp (pass1Step rp st r) rs

/-- Pass 1 from the initial empty state (`letter_sets = []`,
`letters_map = {r: "" ...}`). -/
def pass1 (rp : RejectPairs) (ls : List Level) : CLDState :=
  pass1From rp { groups := [], lmap := fun _ => [] } ls

/-- Pass-2 handling of one group `s` with letter index `i` (lines 70-80):
for each level in input order, skip it if it already holds the letter,
otherwise add the letter when the level is compatible with the (frozen)
membership of `s`. -/
def pass2Group (rp : RejectPairs) (i : Nat) (s : List Level) :
    (Level → List Nat) → List Level → (Level → List Nat)
  | lm, [] => lm
  | lm, r :: rs =>
    pass2Group rp i s
      (if i ∈ lm r then lm
       else if compatible rp r s then (fun x => if x = r then lm x ++ [i] else lm x)
       else lm) rs

/-- Pass 2 over `enumerate(letter_sets)` (lines 68-80); the groups themselves
are not mutated in this pass. -/
def pass2From (rp : RejectPairs) (rateLevels : List Level) :
    (Level → List Nat) → List (Nat × List Level) → (Level → List Nat)
  | lm, [] => lm
  | lm, (i, s) :: rest => pass2From rp rateLevels (pass2Group rp i s lm rateLevels) rest

/-- Pass 2 entry point. -/
def pass2 (rp : RejectPairs) (groups : List (List Level)) (lm : Level → List Nat)
    (rateLevels : List Level) : Level → List Nat :=
  pass2From rp rateLevels lm groups.enum

/-- The normalisation of line 83 on letter indices: de-duplicate and sort
ascending (rendering through `letterOf` then matches the char-level
`sorted(set(...), key=ascii_lowercase.index)` whenever all indices are in
range). -/
def normalizeIdx (l : List Nat) : List Nat :=
  List.insertionSort (· ≤ ·) l.dedup

/-- Render a list of letter indices as the final letter string. -/
def renderLetters (l : List Nat) : String := String.mk (l.map letterOf)

/-- Line 83 applied directly to a letter string:
`"".join(sorted(set(s), key=ascii_lowercase.index))`. -/
def normalizeString (s : String) : String :=
  String.mk (List.insertionSort
    (fun c d => asciiLowercase.indexOf c ≤ asciiLowercase.indexOf d) s.data.dedup)

/-- The explicit error surfaced for a level with no recorded mean (the
reference raises an uncaught `KeyError` there). -/
inductive CLDError where
  | MissingStatistic : Level → CLDError
deriving DecidableEq, Repr

/-- `cld_from_tukey(rate_levels, means_dict, reject_pairs)` (lines 44-84):
greedy compact letter display for Tukey groupings.  Returns the final
letters mapping as an association list in `rate_levels` key order (the
insertion order of the Python dict `letters_map`). -/
def cld_from_tukey (rate_levels : List Level) (means_dict : Means)
    (reject_pairs : RejectPairs) : Except CLDError (List (Level × String)) :=
  match firstMissingMean means_dict rate_levels with
  | some l => Except.error (CLDError.MissingStatistic l)
  | none =>
    let sorted_rates := sortDesc (meanOf means_dict) rate_levels
    let st := pass1 reject_pairs sorted_rates
    let lm := pass2 reject_pairs st.groups st.lmap rate_levels
    Except.ok (rate_levels.map (fun r => (r, renderLetters (normalizeIdx (lm r)))))

/-- Decidable check that the recorded significance entries answer
symmetrically: for every recorded key, querying it in either argument order
gives the same answer.  (The caller in `main` records each Tukey pair under
exactly one order, which satisfies this.) -/
def symmetricOnKeys (rp : RejectPairs) : Bool :=
  rp.all (fun p => sigLookup rp p.1.1 p.1.2 == sigLookup rp p.1.2 p.1.1)

/-- Decidable check that every recorded significance flag is `false`. -/
def allNonSig (rp : RejectPairs) : Bool :=
  rp.all (fun p => ! p.2)

/-- The LetterGroup invariant: every group consists of pairwise
non-significant levels. -/
def groupsOK (rp : RejectPairs) (gs : List (List Level)) : Prop :=
  ∀ s ∈ gs, ∀ a ∈ s, ∀ b ∈ s, a ≠ b → sigLookup rp a b = false

/-- Every letter index recorded in the map is in range for the current group
sequence. -/
def idxBound (st : CLDState) : Prop :=
  ∀ x j, j ∈ st.lmap x → j < st.groups.length

/-- Concrete four-level fixture (levels 1, 2, 3, 4 with descending means). -/
def cexMeans : Means := [(1, 40), (2, 30), (3, 20), (4, 10)]

/-- Significance fixture: 1-2 and 3-4 are significantly different, every
other pair is recorded non-significant (each unordered pair recorded under
exactly one key order, as `main` builds it). -/
def cexRp : RejectPairs :=
  [((1, 2), true), ((1, 3), false), ((2, 3), false),
   ((3, 4), true), ((1, 4), false), ((2, 4), false)]

/-- Concrete three-level fixture (levels 1, 2, 3 with descending means). -/
def c2Means : Means := [(1, 30), (2, 20), (3, 10)]

/-- Significance fixture: only the pair 1-2 is significantly different. -/
def c2Rp : RejectPairs := [((1, 2), true)]

theorem lookupPair_eq_some_mem {rp : RejectPairs} {k : Level × Level} {v : Bool}
    (h : lookupPair rp k = some v) : (k, v) ∈ rp := by
  induction rp with
  | nil => simp [lookupPair] at h
  | cons p rest ih =>
    obtain ⟨k', b⟩ := p
    by_cases hk : k' = k
    · subst hk
      simp [lookupPair] at h
      simp [h]
    · simp [lookupPair, hk] at h
      exact List.mem_cons_of_mem _ (ih h)

theorem lookupMean_eq_some_mem {means : Means} {l : Level} {v : Int}
    (h : lookupMean means l = some v) : (l, v) ∈ means := by
  induction means with
  | nil => simp [lookupMean] at h
  | cons p rest ih =>
    obtain ⟨l', w⟩ := p
    by_cases hk : l' = l
    · subst hk
      simp [lookupMean] at h
      simp [h]
    · simp [lookupMean, hk] at h
      exact List.mem_cons_of_mem _ (ih h)

theorem sigLookup_symm {rp : RejectPairs} (h : symmetricOnKeys rp = true)
    (a b : Level) : sigLookup rp a b = sigLookup rp b a := by
  have hall := List.all_eq_true.mp h
  rcases hab : lookupPair rp (a, b) with _ | v
  · rcases hba : lookupPair rp (b, a) with _ | w
    · simp [sigLookup, hab, hba]
    · have := hall _ (lookupPair_eq_some_mem hba)
      exact (beq_iff_eq.mp this).symm
  · have := hall _ (lookupPair_eq_some_mem hab)
    exact beq_iff_eq.mp this

theorem allNonSig_sigLookup {rp : RejectPairs} (h : allNonSig rp = true)
    (a b : Level) : sigLookup rp a b = false := by
  have hall := List.all_eq_true.mp h
  rcases hab : lookupPair rp (a, b) with _ | v
  · rcases hba : lookupPair rp (b, a) with _ | w
    · simp [sigLookup, hab, hba]
    · have := hall _ (lookupPair_eq_some_mem hba)
      simp at this
      simp [sigLookup, hab, hba, this]
  · have := hall _ (lookupPair_eq_some_mem hab)
    simp at this
    simp [sigLookup, hab, this]

theorem compatible_iff {rp : RejectPairs} {r : Level} {s : List Level} :
    compatible rp r s = true ↔ ∀ rr ∈ s, sigLookup rp r rr = false := by
  simp [compatible, List.all_eq_true]

theorem placeIntoGroups_eq (rp : RejectPairs) (r : Level) :
    ∀ (gs : List (List Level)) (i : Nat),
      placeIntoGroups rp r gs i =
        (gs.map (fun s => if compatible rp r s then s ++ [r] else s),
         ((List.enumFrom i gs).filter (fun p => compatible rp r p.2)).map Prod.fst)
  | [], _ => rfl
  | s :: rest, i => by
    simp only [placeIntoGroups, placeIntoGroups_eq rp r rest (i + 1), List.map_cons,
      List.enumFrom, List.filter_cons]
    by_cases hc : compatible rp r s <;> simp [hc]

theorem placeIntoGroups_fst_length (rp : RejectPairs) (r : Level)
    (gs : List (List Level)) (i : Nat) :
    (placeIntoGroups rp r gs i).1.length = gs.length := by
  rw [placeIntoGroups_eq]
  exact List.length_map _ _

theorem placeIntoGroups_snd_nil_iff (rp : RejectPairs) (r : Level) :
    ∀ (gs : List (List Level)) (i : Nat),
      (placeIntoGroups rp r gs i).2 = [] ↔ ∀ s ∈ gs, compatible rp r s = false
  | [], _ => by simp [placeIntoGroups]
  | s :: rest, i => by
    have ih := placeIntoGroups_snd_nil_iff rp r rest (i + 1)
    cases hc : compatible rp r s with
    | true => simp [placeIntoGroups, hc]
    | false => simp [placeIntoGroups, hc, ih]

theorem placeIntoGroups_snd_lt (rp : RejectPairs) (r : Level) :
    ∀ (gs : List (List Level)) (i : Nat) (j : Nat),
      j ∈ (placeIntoGroups rp r gs i).2 → j < i + gs.length
  | [], _, _ => by simp [placeIntoGroups]
  | s :: rest, i, j => by
    have ih := placeIntoGroups_snd_lt rp r rest (i + 1) j
    cases hc : compatible rp r s with
    | true =>
      simp only [placeIntoGroups, hc, if_true, List.mem_cons, List.length_cons]
      rintro (rfl | hj)
      · omega
      · have := ih hj
        omega
    | false =>
      simp only [placeIntoGroups, hc, if_false, List.length_cons]
      intro hj
      have := ih hj
      omega

theorem pass1Step_groups_le (rp : RejectPairs) (st : CLDState) (r : Level) :
    (pass1Step rp st r).groups.length ≤ st.groups.length + 1 := by
  cases h2 : (placeIntoGroups rp r st.groups 0).2.isEmpty with
  | true => simp [pass1Step, h2]
  | false => simp [pass1Step, h2, placeIntoGroups_fst_length]

theorem pass1Step_groups_ge (rp : RejectPairs) (st : CLDState) (r : Level) :
    st.groups.length ≤ (pass1Step rp st r).groups.length := by
  cases h2 : (placeIntoGroups rp r st.groups 0).2.isEmpty with
  | true => simp [pass1Step, h2]
  | false => simp [pass1Step, h2, placeIntoGroups_fst_length]

theorem pass1Step_lmap_other (rp : RejectPairs) (st : CLDState) (r x : Level)
    (h : x ≠ r) : (pass1Step rp st r).lmap x = st.lmap x := by
  cases h2 : (placeIntoGroups rp r st.groups 0).2.isEmpty with
  | true => simp [pass1Step, h2, h]
  | false => simp [pass1Step, h2, h]

theorem pass1Step_lmap_self (rp : RejectPairs) (st : CLDState) (r : Level) :
    ∃ t, t ≠ [] ∧ (pass1Step rp st r).lmap r = st.lmap r ++ t := by
  cases h2 : (placeIntoGroups rp r st.groups 0).2.isEmpty with
  | true =>
    refine ⟨[st.groups.length], by simp, ?_⟩
    simp [pass1Step, h2]
  | false =>
    refine ⟨(placeIntoGroups rp r st.groups 0).2, ?_, ?_⟩
    · intro hnil
      rw [hnil] at h2
      simp at h2
    · simp [pass1Step, h2]

theorem pass1Step_idxBound (rp : RejectPairs) (st : CLDState) (r : Level)
    (h : idxBound st) : idxBound (pass1Step rp st r) := by
  intro x j hj
  cases h2 : (placeIntoGroups rp r st.groups 0).2.isEmpty with
  | true =>
    by_cases hx : x = r
    · subst hx
      simp [pass1Step, h2] at hj ⊢
      rcases hj with hj | hj
      · have := h x j hj
        omega
      · omega
    · simp [pass1Step, h2, hx] at hj ⊢
      have := h x j hj
      omega
  | false =>
    by_cases hx : x = r
    · subst hx
      simp [pass1Step, h2, placeIntoGroups_fst_length] at hj ⊢
      rcases hj with hj | hj
      · exact h x j hj
      · have := placeIntoGroups_snd_lt rp x st.groups 0 j hj
        omega
    · simp [pass1Step, h2, hx, placeIntoGroups_fst_length] at hj ⊢
      exact h x j hj

theorem groupsOK_pass1Step {rp : RejectPairs} (hsym : symmetricOnKeys rp = true)
    (st : CLDState) (r : Level) (h : groupsOK rp st.groups) :
    groupsOK rp (pass1Step rp st r).groups := by
  intro s hs a ha b hb hab
  cases h2 : (placeIntoGroups rp r st.groups 0).2.isEmpty with
  | true =>
    simp [pass1Step, h2] at hs
    rcases hs with hs | rfl
    · exact h s hs a ha b hb hab
    · simp only [List.mem_singleton] at ha hb
      exact absurd (ha.trans hb.symm) hab
  | false =>
    simp only [pass1Step, h2] at hs
    simp only [Bool.false_eq_true, if_false] at hs
    rw [placeIntoGroups_eq] at hs
    simp only [List.mem_map] at hs
    obtain ⟨s0, hs0, rfl⟩ := hs
    by_cases hc : compatible rp r s0 = true
    · simp only [hc, if_true] at ha hb
      have hcomp := compatible_iff.mp hc
      simp only [List.mem_append, List.mem_singleton] at ha hb
      rcases ha with ha | rfl <;> rcases hb with hb | rfl
      · exact h s0 hs0 a ha b hb hab
      · rw [sigLookup_symm hsym]
        exact hcomp a ha
      · exact hcomp b hb
      · exact absurd rfl hab
    · simp only [hc, if_false] at ha hb
      exact h s0 hs0 a ha b hb hab

theorem pass1From_groups_le (rp : RejectPairs) :
    ∀ (ls : List Level) (st : CLDState),
      (pass1From rp st ls).groups.length ≤ st.groups.length + ls.length
  | [], st => by simp [pass1From]
  | r :: rs, st => by
    have h1 := pass1Step_groups_le rp st r
    have h2 := pass1From_groups_le rp rs (pass1Step rp st r)
    simp only [pass1From, List.length_cons]
    omega

theorem pass1From_lmap_extend (rp : RejectPairs) :
    ∀ (ls : List Level) (st : CLDState) (x : Level),
      ∃ t, (pass1From rp st ls).lmap x = st.lmap x ++ t
  | [], st, x => ⟨[], by simp [pass1From]⟩
  | r :: rs, st, x => by
    obtain ⟨t2, ht2⟩ := pass1From_lmap_extend rp rs (pass1Step rp st r) x
    by_cases hx : x = r
    · subst hx
      obtain ⟨t1, _, ht1⟩ := pass1Step_lmap_self rp st x
      exact ⟨t1 ++ t2, by simp [pass1From, ht2, ht1]⟩
    · rw [pass1Step_lmap_other rp st r x hx] at ht2
      exact ⟨t2, by simp [pass1From, ht2]⟩

theorem pass1From_lmap_ne_nil (rp : RejectPairs) :
    ∀ (ls : List Level) (st : CLDState) (x : Level),
      (x ∈ ls ∨ st.lmap x ≠ []) → (pass1From rp st ls).lmap x ≠ []
  | [], st, x => by
    rintro (h | h)
    · simp at h
    · simpa [pass1From] using h
  | r :: rs, st, x => by
    intro hx
    by_cases hxr : x = r
    · subst hxr
      apply pass1From_lmap_ne_nil rp rs (pass1Step rp st x) x
      right
      obtain ⟨t1, ht1ne, ht1⟩ := pass1Step_lmap_self rp st x
      rw [ht1]
      simp [ht1ne]
    · rcases hx with hx | hx
      · rcases List.mem_cons.mp hx with rfl | hx
        · exact absurd rfl hxr
        · exact pass1From_lmap_ne_nil rp rs (pass1Step rp st r) x (Or.inl hx)
      · apply pass1From_lmap_ne_nil rp rs (pass1Step rp st r) x
        right
        rwa [pass1Step_lmap_other rp st r x hxr]

theorem pass1From_idxBound (rp : RejectPairs) :
    ∀ (ls : List Level) (st : CLDState), idxBound st → idxBound (pass1From rp st ls)
  | [], _, h => h
  | r :: rs, st, h =>
    pass1From_idxBound rp rs (pass1Step rp st r) (pass1Step_idxBound rp st r h)

theorem groupsOK_pass1From {rp : RejectPairs} (hsym : symmetricOnKeys rp = true) :
    ∀ (ls : List Level) (st : CLDState),
      groupsOK rp st.groups → groupsOK rp (pass1From rp st ls).groups
  | [], _, h => h
  | r :: rs, st, h =>
    groupsOK_pass1From hsym rs (pass1Step rp st r) (groupsOK_pass1Step hsym st r h)

theorem pass1_groups_le (rp : RejectPairs) (ls : List Level) :
    (pass1 rp ls).groups.length ≤ ls.length := by
  simpa using pass1From_groups_le rp ls { groups := [], lmap := fun _ => [] }

theorem pass1_idxBound (rp : RejectPairs) (ls : List Level) : idxBound (pass1 rp ls) := by
  apply pass1From_idxBound
  intro x j hj
  simp at hj

theorem pass1_lmap_ne_nil (rp : RejectPairs) (ls : List Level) (x : Level)
    (hx : x ∈ ls) : (pass1 rp ls).lmap x ≠ [] :=
  pass1From_lmap_ne_nil rp ls _ x (Or.inl hx)

theorem mem_enumFrom_bounds {α : Type} :
    ∀ {gs : List α} {i : Nat} {p : Nat × α}, p ∈ List.enumFrom i gs →
      i ≤ p.1 ∧ p.1 < i + gs.length ∧ p.2 ∈ gs
  | [], i, p => by simp [List.enumFrom]
  | s :: rest, i, p => by
    intro hp
    simp only [List.enumFrom, List.mem_cons] at hp
    rcases hp with rfl | hp
    · refine ⟨le_rfl, ?_, List.mem_cons_self _ _⟩
      simp only [List.length_cons]
      omega
    · obtain ⟨h1, h2, h3⟩ := mem_enumFrom_bounds hp
      refine ⟨by omega, ?_, List.mem_cons_of_mem _ h3⟩
      simp only [List.length_cons]
      omega

theorem pass2Group_extend (rp : RejectPairs) (i : Nat) (s : List Level) :
    ∀ (rl : List Level) (lm : Level → List Nat) (x : Level),
      ∃ t, pass2Group rp i s lm rl x = lm x ++ t ∧ ∀ j ∈ t, j = i
  | [], lm, x => ⟨[], by simp [pass2Group]⟩
  | r :: rs, lm, x => by
    have key : ∀ lm2 : Level → List Nat, (∃ t1, lm2 x = lm x ++ t1 ∧ ∀ j ∈ t1, j = i) →
        ∃ t, pass2Group rp i s lm2 rs x = lm x ++ t ∧ ∀ j ∈ t, j = i := by
      rintro lm2 ⟨t1, h1, h1i⟩
      obtain ⟨t2, h2, h2i⟩ := pass2Group_extend rp i s rs lm2 x
      refine ⟨t1 ++ t2, ?_, ?_⟩
      · rw [h2, h1, List.append_assoc]
      · intro j hj
        rcases List.mem_append.mp hj with hj | hj
        · exact h1i j hj
        · exact h2i j hj
    simp only [pass2Group]
    apply key
    by_cases hi : i ∈ lm r
    · refine ⟨[], ?_, by simp⟩
      simp [hi]
    · cases hc : compatible rp r s with
      | true =>
        by_cases hx : x = r
        · subst hx
          refine ⟨[i], ?_, by simp⟩
          simp [hi, hc]
        · refine ⟨[], ?_, by simp⟩
          simp [hi, hc, hx]
      | false =>
        refine ⟨[], ?_, by simp⟩
        simp [hi, hc]

theorem pass2From_extend (rp : RejectPairs) (rl : List Level) :
    ∀ (ps : List (Nat × List Level)) (lm : Level → List Nat) (x : Level),
      ∃ t, pass2From rp rl lm ps x = lm x ++ t ∧ ∀ j ∈ t, ∃ p ∈ ps, j = p.1
  | [], lm, x => ⟨[], by simp [pass2From]⟩
  | (i, s) :: rest, lm, x => by
    obtain ⟨t1, h1, h1i⟩ := pass2Group_extend rp i s rl lm x
    obtain ⟨t2, h2, h2i⟩ := pass2From_extend rp rl rest (pass2Group rp i s lm rl) x
    refine ⟨t1 ++ t2, ?_, ?_⟩
    · simp only [pass2From]
      rw [h2, h1, List.append_assoc]
    · intro j hj
      rcases List.mem_append.mp hj with hj | hj
      · exact ⟨(i, s), List.mem_cons_self _ _, h1i j hj⟩
      · obtain ⟨p, hp, hpj⟩ := h2i j hj
        exact ⟨p, List.mem_cons_of_mem _ hp, hpj⟩

theorem pass2_extend (rp : RejectPairs) (gs : List (List Level)) (lm : Level → List Nat)
    (rl : List Level) (x : Level) : ∃ t, pass2 rp gs lm rl x = lm x ++ t := by
  obtain ⟨t, ht, _⟩ := pass2From_extend rp rl gs.enum lm x
  exact ⟨t, ht⟩

theorem pass2_idx (rp : RejectPairs) (gs : List (List Level)) (lm : Level → List Nat)
    (rl : List Level) (x : Level) (j : Nat) (hj : j ∈ pass2 rp gs lm rl x) :
    j ∈ lm x ∨ j < gs.length := by
  obtain ⟨t, ht, hti⟩ := pass2From_extend rp rl gs.enum lm x
  rw [pass2, ht] at hj
  rcases List.mem_append.mp hj with hj | hj
  · exact Or.inl hj
  · obtain ⟨p, hp, rfl⟩ := hti j hj
    right
    have henum : gs.enum = List.enumFrom 0 gs := rfl
    rw [henum] at hp
    have := mem_enumFrom_bounds hp
    omega

theorem mem_sortDesc {m : Level → Int} {ls : List Level} {a : Level} :
    a ∈ sortDesc m ls ↔ a ∈ ls :=
  (List.perm_insertionSort _ ls).mem_iff

theorem length_sortDesc (m : Level → Int) (ls : List Level) :
    (sortDesc m ls).length = ls.length :=
  (List.perm_insertionSort _ ls).length_eq

theorem normalizeIdx_sorted (l : List Nat) : List.Sorted (· ≤ ·) (normalizeIdx l) :=
  List.sorted_insertionSort _ _

theorem normalizeIdx_nodup (l : List Nat) : (normalizeIdx l).Nodup :=
  ((List.perm_insertionSort _ _).nodup_iff).mpr (List.nodup_dedup l)

theorem normalizeIdx_sorted_lt (l : List Nat) : List.Sorted (· < ·) (normalizeIdx l) :=
  (normalizeIdx_sorted l).lt_of_le (normalizeIdx_nodup l)

theorem normalizeIdx_mem {l : List Nat} {j : Nat} (h : j ∈ normalizeIdx l) : j ∈ l :=
  List.mem_dedup.mp (((List.perm_insertionSort _ _).mem_iff).mp h)

theorem normalizeIdx_ne_nil {l : List Nat} (h : l ≠ []) : normalizeIdx l ≠ [] := by
  intro hnil
  rw [normalizeIdx] at hnil
  have hlen := congrArg List.length hnil
  rw [List.length_insertionSort] at hlen
  have hd : l.dedup = [] := List.eq_nil_of_length_eq_zero (by simpa using hlen)
  exact h ((List.dedup_eq_nil l).mp hd)

theorem letterOf_mem_of_lt : ∀ i < 26, letterOf i ∈ asciiLowercase := by decide

theorem letterOf_lt_of_lt : ∀ i < 26, ∀ j < 26, j < i → letterOf j < letterOf i := by decide

theorem indexOf_letterOf : ∀ i < 26, asciiLowercase.indexOf (letterOf i) = i := by decide

theorem allNonSig_compatible {rp : RejectPairs} (h : allNonSig rp = true)
    (r : Level) (s : List Level) : compatible rp r s = true :=
  compatible_iff.mpr (fun rr _ => allNonSig_sigLookup h r rr)

theorem pass1Step_allNonSig {rp : RejectPairs} (h : allNonSig rp = true)
    (st : CLDState) (r : Level) (hg : st.groups.length ≤ 1)
    (hl : ∀ x j, j ∈ st.lmap x → j = 0) :
    (pass1Step rp st r).groups.length ≤ 1 ∧
    (∀ x j, j ∈ (pass1Step rp st r).lmap x → j = 0) := by
  rcases hgs : st.groups with _ | ⟨g, _ | ⟨g2, t⟩⟩
  · constructor
    · simp [pass1Step, hgs, placeIntoGroups]
    · intro x j hj
      by_cases hx : x = r
      · subst hx
        simp [pass1Step, hgs, placeIntoGroups] at hj
        rcases hj with hj | hj
        · exact hl x j hj
        · exact hj
      · simp [pass1Step, hgs, placeIntoGroups, hx] at hj
        exact hl x j hj
  · have hc : compatible rp r g = true := allNonSig_compatible h r g
    constructor
    · simp [pass1Step, hgs, placeIntoGroups, hc]
    · intro x j hj
      by_cases hx : x = r
      · subst hx
        simp [pass1Step, hgs, placeIntoGroups, hc] at hj
        rcases hj with hj | hj
        · exact hl x j hj
        · exact hj
      · simp [pass1Step, hgs, placeIntoGroups, hc, hx] at hj
        exact hl x j hj
  · rw [hgs] at hg
    simp at hg

theorem pass1From_allNonSig {rp : RejectPairs} (h : allNonSig rp = true) :
    ∀ (ls : List Level) (st : CLDState),
      st.groups.length ≤ 1 → (∀ x j, j ∈ st.lmap x → j = 0) →
      (pass1From rp st ls).groups.length ≤ 1 ∧
      (∀ x j, j ∈ (pass1From rp st ls).lmap x → j = 0)
  | [], _, hg, hl => ⟨hg, hl⟩
  | r :: rs, st, hg, hl => by
    obtain ⟨hg2, hl2⟩ := pass1Step_allNonSig h st r hg hl
    exact pass1From_allNonSig h rs (pass1Step rp st r) hg2 hl2

theorem pass2_allZero (rp : RejectPairs) (gs : List (List Level)) (lm : Level → List Nat)
    (rl : List Level) (hg : gs.length ≤ 1) (hl : ∀ x j, j ∈ lm x → j = 0) :
    ∀ x j, j ∈ pass2 rp gs lm rl x → j = 0 := by
  intro x j hj
  rcases pass2_idx rp gs lm rl x j hj with hj2 | hj2
  · exact hl x j hj2
  · omega

theorem dedup_all_zero : ∀ {l : List Nat}, l ≠ [] → (∀ j ∈ l, j = 0) → l.dedup = [0]
  | [], h, _ => absurd rfl h
  | [a], _, hz => by
    have ha : a = 0 := hz a (List.mem_singleton.mpr rfl)
    subst ha
    rw [List.dedup_cons_of_not_mem (by simp), List.dedup_nil]
  | a :: b :: t, _, hz => by
    have ha : a = 0 := hz a (by simp)
    have hb : ∀ j ∈ b :: t, j = 0 := fun j hj => hz j (List.mem_cons_of_mem _ hj)
    have hmem : a ∈ b :: t := by
      have hb0 : b = 0 := hb b (by simp)
      rw [ha, ← hb0]
      exact List.mem_cons_self _ _
    rw [List.dedup_cons_of_mem hmem]
    exact dedup_all_zero (by simp) hb

theorem normalizeIdx_all_zero {l : List Nat} (hne : l ≠ []) (hz : ∀ j ∈ l, j = 0) :
    normalizeIdx l = [0] := by
  rw [normalizeIdx, dedup_all_zero hne hz]
  rfl

theorem firstMissingMean_none {means : Means} :
    ∀ {ls : List Level}, firstMissingMean means ls = none →
      ∀ l ∈ ls, (lookupMean means l).isSome
  | [], _, l, hl => by simp at hl
  | a :: as, h, l, hl => by
    by_cases ha : (lookupMean means a).isSome
    · simp only [firstMissingMean, if_pos ha] at h
      rcases List.mem_cons.mp hl with rfl | hl2
      · exact ha
      · exact firstMissingMean_none h l hl2
    · simp only [firstMissingMean, if_neg ha] at h
      cases h

theorem firstMissingMean_some {means : Means} :
    ∀ {ls : List Level} {l : Level}, firstMissingMean means ls = some l →
      l ∈ ls ∧ lookupMean means l = none
  | [], l, h => by simp [firstMissingMean] at h
  | a :: as, l, h => by
    by_cases ha : (lookupMean means a).isSome
    · simp only [firstMissingMean, if_pos ha] at h
      obtain ⟨h1, h2⟩ := firstMissingMean_some h
      exact ⟨List.mem_cons_of_mem _ h1, h2⟩
    · simp only [firstMissingMean, if_neg ha] at h
      have := Option.some.inj h
      subst this
      exact ⟨List.mem_cons_self _ _, Option.not_isSome_iff_eq_none.mp ha⟩

theorem final_idx_bound (rp : RejectPairs) (sorted rl : List Level) (x : Level) (j : Nat)
    (hj : j ∈ pass2 rp (pass1 rp sorted).groups (pass1 rp sorted).lmap rl x) :
    j < (pass1 rp sorted).groups.length := by
  rcases pass2_idx _ _ _ _ _ _ hj with h | h
  · exact pass1_idxBound rp sorted x j h
  · exact h

theorem cld_ok_eq {levels : List Level} {means : Means} (rp : RejectPairs)
    (hm : firstMissingMean means levels = none) :
    cld_from_tukey levels means rp =
      Except.ok (levels.map (fun r => (r, renderLetters (normalizeIdx
        (pass2 rp (pass1 rp (sortDesc (meanOf means) levels)).groups
          (pass1 rp (sortDesc (meanOf means) levels)).lmap levels r))))) := by
  simp only [cld_from_tukey, hm]

theorem sortDesc_filter_stable (m : Level → Int) :
    ∀ (ls : List Level) (k : Int),
      (sortDesc m ls).filter (fun y => decide (m y = k)) =
        ls.filter (fun y => decide (m y = k))
  | [], _ => rfl
  | x :: xs, k => by
    have ih := sortDesc_filter_stable m xs k
    have hunfold : sortDesc m (x :: xs) =
        (sortDesc m xs).orderedInsert (fun a b => m b ≤ m a) x := rfl
    rw [hunfold, List.orderedInsert_eq_take_drop, List.filter_append]
    have hsplit :
        ((sortDesc m xs).takeWhile fun b => decide ¬(m b ≤ m x)).filter
            (fun y => decide (m y = k)) ++
          ((sortDesc m xs).dropWhile fun b => decide ¬(m b ≤ m x)).filter
            (fun y => decide (m y = k)) =
          (sortDesc m xs).filter (fun y => decide (m y = k)) := by
      rw [← List.filter_append, List.takeWhile_append_dropWhile]
    cases hp : decide (m x = k) with
    | true =>
      have hxk : m x = k := of_decide_eq_true hp
      have hA : ((sortDesc m xs).takeWhile fun b => decide ¬(m b ≤ m x)).filter
          (fun y => decide (m y = k)) = [] := by
        rw [List.filter_eq_nil_iff]
        intro b hb
        have hq := List.mem_takeWhile_imp hb
        simp only [decide_eq_true_iff] at hq ⊢
        omega
      rw [hA] at hsplit
      rw [hA, List.filter_cons, hp]
      simp only [List.nil_append] at hsplit ⊢
      rw [hsplit, ih, List.filter_cons, hp]
      simp
    | false =>
      rw [List.filter_cons, hp]
      simp only [Bool.false_eq_true, if_false]
      rw [hsplit, ih, List.filter_cons, hp]
      simp

/-- C1: the claim states that two distinct levels whose letter strings share
a letter are never significantly different.  The code violates this: at this
input, pass 2 back-fills letter `c` (the letter of the group `{4}`) onto both
level 1 and level 2, because each of them is separately compatible with the
frozen membership `{4}`, yet `reject_pairs` marks the pair (1, 2) as
significantly different.  This theorem evaluates `cld_from_tukey` at the
failing input: levels 1 and 2 both receive the letter `c` while
`sigLookup` reports them significant. -/
theorem C1_code_evaluation :
    cld_from_tukey [1, 2, 3, 4] cexMeans cexRp =
      Except.ok [(1, "ac"), (2, "bc"), (3, "ab"), (4, "c")] ∧
    sigLookup cexRp 1 2 = true ∧
    'c' ∈ ("ac" : String).data ∧ 'c' ∈ ("bc" : String).data := by
  refine ⟨rfl, rfl, by decide, by decide⟩

/-- C2 counterexample: the claim states that in pass 1 each level joins at
most one LetterGroup (scanning stops once placed).  In the code there is no
`break` after a placement: at this input level 3 is placed into both
existing groups during its single pass-1 scan, so it is a member of two
groups. -/
theorem C2_counterexample :
    ((pass1 c2Rp (sortDesc (meanOf c2Means) [1, 2, 3])).groups.countP
      (fun s => decide ((3 : Level) ∈ s))) = 2 := by decide

/-- C2 (amended): in pass 1 a level is added to EVERY existing group (in
creation order) whose current members are all non-significant with it,
collecting each such group's letter; scanning does not stop at the first
placement; a new singleton group with the next letter is appended exactly
when no existing group accepted the level. -/
theorem C2_joins_every_compatible_group (rp : RejectPairs) (st : CLDState) (r : Level) :
    pass1Step rp st r =
      if st.groups.all (fun s => ! compatible rp r s) then
        { groups := st.groups ++ [[r]],
          lmap := fun x => if x = r then st.lmap x ++ [st.groups.length] else st.lmap x }
      else
        { groups := st.groups.map (fun s => if compatible rp r s then s ++ [r] else s),
          lmap := fun x =>
            if x = r then
              st.lmap x ++
                (((List.enumFrom 0 st.groups).filter
                  (fun p => compatible rp r p.2)).map Prod.fst)
            else st.lmap x } := by
  have heq := placeIntoGroups_eq rp r st.groups 0
  have h1 : (placeIntoGroups rp r st.groups 0).1 =
      st.groups.map (fun s => if compatible rp r s then s ++ [r] else s) := by
    rw [heq]
  have hsnd : (placeIntoGroups rp r st.groups 0).2 =
      ((List.enumFrom 0 st.groups).filter (fun p => compatible rp r p.2)).map Prod.fst := by
    rw [heq]
  cases h2 : (placeIntoGroups rp r st.groups 0).2.isEmpty with
  | true =>
    have hnil : (placeIntoGroups rp r st.groups 0).2 = [] := by
      cases hx : (placeIntoGroups rp r st.groups 0).2 with
      | nil => rfl
      | cons a t =>
        rw [hx] at h2
        cases h2
    have hall : st.groups.all (fun s => ! compatible rp r s) = true :=
      List.all_eq_true.mpr (fun s hs => by
        simp [(placeIntoGroups_snd_nil_iff rp r st.groups 0).mp hnil s hs])
    rw [hall]
    simp [pass1Step, h2]
  | false =>
    have hne : (placeIntoGroups rp r st.groups 0).2 ≠ [] := by
      intro h0
      rw [h0] at h2
      cases h2
    have hall : st.groups.all (fun s => ! compatible rp r s) = false := by
      cases hall2 : st.groups.all (fun s => ! compatible rp r s) with
      | false => rfl
      | true =>
        exact absurd ((placeIntoGroups_snd_nil_iff rp r st.groups 0).mpr
          (fun s hs => by simpa using List.all_eq_true.mp hall2 s hs)) hne
    rw [hall]
    simp only [pass1Step, h2, Bool.false_eq_true, if_false]
    rw [h1, hsnd]

/-- C7: a pair recorded under neither argument order is treated as not
significant by the lookup shared by pass 1 and pass 2 (`sigLookup`, the
model of the identical code at lines 55-56 and 75-76), and a pair recorded
under exactly one order answers with the recorded flag for both query
orders. -/
theorem C7_default_false_lookup (rp : RejectPairs) (a b : Level) :
    (lookupPair rp (a, b) = none → lookupPair rp (b, a) = none →
      sigLookup rp a b = false ∧ sigLookup rp b a = false) ∧
    (∀ v, lookupPair rp (a, b) = some v → lookupPair rp (b, a) = none →
      sigLookup rp a b = v ∧ sigLookup rp b a = v) := by
  constructor
  · intro h1 h2
    constructor <;> simp [sigLookup, h1, h2]
  · intro v h1 h2
    constructor <;> simp [sigLookup, h1, h2]

theorem C7_witness :
    sigLookup [((1, 2), true)] 1 3 = false ∧ sigLookup [((1, 2), true)] 2 1 = true :=
  ⟨((C7_default_false_lookup [((1, 2), true)] 1 3).1 (by decide) (by decide)).1,
   ((C7_default_false_lookup [((1, 2), true)] 1 2).2 true (by decide) (by decide)).2⟩

/-- C8: `cld_from_tukey` is a pure function of its inputs (two runs on
identical inputs return the identical mapping), and the descending-mean
sort it uses is stable: for every mean value, the levels holding that mean
appear in the sorted list in exactly their original input order. -/
theorem C8_deterministic_pure (levels : List Level) (means : Means) (rp : RejectPairs)
    (m : Level → Int) (ls : List Level) (k : Int) :
    cld_from_tukey levels means rp = cld_from_tukey levels means rp ∧
    (sortDesc m ls).filter (fun y => decide (m y = k)) =
      ls.filter (fun y => decide (m y = k)) :=
  ⟨rfl, sortDesc_filter_stable m ls k⟩

/-- C9: an empty level list returns the empty mapping without error, and a
non-empty input in which some level lacks a recorded mean fails with
`MissingStatistic` (the surfaced form of the reference's uncaught lookup
error) instead of defaulting a value. -/
theorem C9_empty_and_missing (levels : List Level) (means : Means) (rp : RejectPairs) :
    (levels = [] → cld_from_tukey levels means rp = Except.ok []) ∧
    ((∃ l ∈ levels, lookupMean means l = none) →
      ∃ l, l ∈ levels ∧ lookupMean means l = none ∧
        cld_from_tukey levels means rp = Except.error (CLDError.MissingStatistic l)) := by
  constructor
  · rintro rfl
    rfl
  · rintro ⟨l0, hl0, hm0⟩
    cases hf : firstMissingMean means levels with
    | none =>
      have := firstMissingMean_none hf l0 hl0
      rw [hm0] at this
      simp at this
    | some l =>
      obtain ⟨hmem, hnone⟩ := firstMissingMean_some hf
      refine ⟨l, hmem, hnone, ?_⟩
      simp [cld_from_tukey, hf]

theorem C9_witness :
    cld_from_tukey [] [] [] = Except.ok [] ∧
    ∃ l, l ∈ ([1, 2] : List Level) ∧ lookupMean [(1, 5)] l = none ∧
      cld_from_tukey [1, 2] [(1, 5)] [] = Except.error (CLDError.MissingStatistic l) :=
  ⟨(C9_empty_and_missing [] [] []).1 rfl,
   (C9_empty_and_missing [1, 2] [(1, 5)] []).2 ⟨2, by decide, by decide⟩⟩

theorem map_fst_map_pair (f : Level → String) (ls : List Level) :
    (ls.map (fun r => (r, f r))).map Prod.fst = ls := by
  induction ls with
  | nil => rfl
  | cons a t ih => simp [ih]

theorem renderLetters_ne_empty {l : List Nat} (h : l ≠ []) : renderLetters l ≠ "" := by
  intro hs
  have hdata : l.map letterOf = ([] : List Char) := congrArg String.data hs
  exact h (List.map_eq_nil_iff.mp hdata)

/-- C3: for a non-empty level list of at most 26 levels (the regime in which
the Python letter indexing returns instead of raising `IndexError`, since
the group count never exceeds the level count) in which every level has a
recorded mean, every input level appears as a key of the returned mapping
(the key list is exactly the input list) and every level's letter string is
non-empty, the first letter having been assigned in pass 1 by joining or
founding a group. -/
theorem C3_completeness (levels : List Level) (means : Means) (rp : RejectPairs)
    (_hne : levels ≠ []) (_hlen : levels.length ≤ 26)
    (hm : firstMissingMean means levels = none) :
    ∃ out, cld_from_tukey levels means rp = Except.ok out ∧
      out.map Prod.fst = levels ∧ ∀ p ∈ out, p.2 ≠ "" := by
  refine ⟨_, cld_ok_eq rp hm, ?_, ?_⟩
  · exact map_fst_map_pair _ levels
  · intro p hp
    simp only [List.mem_map] at hp
    obtain ⟨r, hr, rfl⟩ := hp
    have h1 : (pass1 rp (sortDesc (meanOf means) levels)).lmap r ≠ [] :=
      pass1_lmap_ne_nil rp _ r (mem_sortDesc.mpr hr)
    obtain ⟨t, ht⟩ := pass2_extend rp (pass1 rp (sortDesc (meanOf means) levels)).groups
      (pass1 rp (sortDesc (meanOf means) levels)).lmap levels r
    have h2 : pass2 rp (pass1 rp (sortDesc (meanOf means) levels)).groups
        (pass1 rp (sortDesc (meanOf means) levels)).lmap levels r ≠ [] := by
      rw [ht]
      intro h0
      exact h1 (List.append_eq_nil.mp h0).1
    exact renderLetters_ne_empty (normalizeIdx_ne_nil h2)

theorem C3_witness :
    (([2, 4, 6, 8] : List Level) ≠ []) ∧
    (([2, 4, 6, 8] : List Level).length ≤ 26) ∧
    firstMissingMean [(2, 10), (4, 20), (6, 30), (8, 40)] [2, 4, 6, 8] = none ∧
    ∃ out, cld_from_tukey [2, 4, 6, 8] [(2, 10), (4, 20), (6, 30), (8, 40)]
        [((2, 4), true)] = Except.ok out ∧
      out.map Prod.fst = [2, 4, 6, 8] ∧ ∀ p ∈ out, p.2 ≠ "" :=
  ⟨by decide, by decide, by decide,
   C3_completeness [2, 4, 6, 8] [(2, 10), (4, 20), (6, 30), (8, 40)] [((2, 4), true)]
     (by decide) (by decide) (by decide)⟩

/-- C4: after every step of the algorithm (every intermediate pass-1 state
is `pass1` of a prefix of the sorted level list, and pass 2 never alters
the groups), every LetterGroup contains only pairwise non-significant
levels — assuming the recorded significance entries answer symmetrically,
as the `main` caller guarantees by recording each Tukey pair under exactly
one key order. -/
theorem C4_letter_groups_invariant {rp : RejectPairs} (hsym : symmetricOnKeys rp = true)
    (ls : List Level) : groupsOK rp (pass1 rp ls).groups := by
  apply groupsOK_pass1From hsym
  intro s hs
  simp at hs

theorem C4_witness :
    symmetricOnKeys [((1, 2), true), ((3, 4), false)] = true ∧
    groupsOK [((1, 2), true), ((3, 4), false)]
      (pass1 [((1, 2), true), ((3, 4), false)] [1, 2, 3, 4]).groups :=
  ⟨by decide, C4_letter_groups_invariant (by decide) [1, 2, 3, 4]⟩

/-- C5: when every recorded significance flag is false (in particular when
no pair is recorded at all), every level ends with exactly the single
letter string `"a"`. -/
theorem C5_all_nonsignificant (levels : List Level) (means : Means) (rp : RejectPairs)
    (hns : allNonSig rp = true) (hm : firstMissingMean means levels = none) :
    ∃ out, cld_from_tukey levels means rp = Except.ok out ∧
      out.map Prod.fst = levels ∧ ∀ p ∈ out, p.2 = "a" := by
  refine ⟨_, cld_ok_eq rp hm, ?_, ?_⟩
  · exact map_fst_map_pair _ levels
  · intro p hp
    simp only [List.mem_map] at hp
    obtain ⟨r, hr, rfl⟩ := hp
    obtain ⟨hg1, hz1⟩ := pass1From_allNonSig hns (sortDesc (meanOf means) levels)
      { groups := [], lmap := fun _ => [] } (by simp) (by intro x j hj; simp at hj)
    have hz2 : ∀ x j, j ∈ pass2 rp (pass1 rp (sortDesc (meanOf means) levels)).groups
        (pass1 rp (sortDesc (meanOf means) levels)).lmap levels x → j = 0 :=
      pass2_allZero rp _ _ levels hg1 hz1
    have hne1 : (pass1 rp (sortDesc (meanOf means) levels)).lmap r ≠ [] :=
      pass1_lmap_ne_nil rp _ r (mem_sortDesc.mpr hr)
    obtain ⟨t, ht⟩ := pass2_extend rp (pass1 rp (sortDesc (meanOf means) levels)).groups
      (pass1 rp (sortDesc (meanOf means) levels)).lmap levels r
    have hne2 : pass2 rp (pass1 rp (sortDesc (meanOf means) levels)).groups
        (pass1 rp (sortDesc (meanOf means) levels)).lmap levels r ≠ [] := by
      rw [ht]
      intro h0
      exact hne1 (List.append_eq_nil.mp h0).1
    have hnorm := normalizeIdx_all_zero hne2 (fun j hj => hz2 r j hj)
    show renderLetters (normalizeIdx (pass2 rp _ _ levels r)) = "a"
    rw [hnorm]
    rfl

theorem C5_witness :
    allNonSig [((2, 4), false)] = true ∧
    firstMissingMean [(2, 10), (4, 20), (6, 30), (8, 5)] [2, 4, 6, 8] = none ∧
    ∃ out, cld_from_tukey [2, 4, 6, 8] [(2, 10), (4, 20), (6, 30), (8, 5)]
        [((2, 4), false)] = Except.ok out ∧
      out.map Prod.fst = [2, 4, 6, 8] ∧ ∀ p ∈ out, p.2 = "a" :=
  ⟨by decide, by decide,
   C5_all_nonsignificant [2, 4, 6, 8] [(2, 10), (4, 20), (6, 30), (8, 5)] [((2, 4), false)]
     (by decide) (by decide)⟩

/-- C6: with at most 26 levels (the regime in which the Python letter
indexing cannot raise), every letter string in the returned mapping is
de-duplicated and strictly sorted in letter-alphabet order, and re-applying
the normalisation of line 83 to a returned string leaves it unchanged. -/
theorem C6_normalized_letters (levels : List Level) (means : Means) (rp : RejectPairs)
    (hlen : levels.length ≤ 26) :
    ∀ out, cld_from_tukey levels means rp = Except.ok out →
      ∀ p ∈ out, List.Sorted (· < ·) p.2.data ∧ normalizeString p.2 = p.2 := by
  intro out hout p hp
  cases hf : firstMissingMean means levels with
  | some l => simp [cld_from_tukey, hf] at hout
  | none =>
    rw [cld_ok_eq rp hf] at hout
    injection hout with hout
    subst hout
    simp only [List.mem_map] at hp
    obtain ⟨r, hr, rfl⟩ := hp
    have hsl : List.Sorted (· < ·)
        (normalizeIdx (pass2 rp (pass1 rp (sortDesc (meanOf means) levels)).groups
          (pass1 rp (sortDesc (meanOf means) levels)).lmap levels r)) :=
      normalizeIdx_sorted_lt _
    have hbound : ∀ j ∈ normalizeIdx (pass2 rp
        (pass1 rp (sortDesc (meanOf means) levels)).groups
        (pass1 rp (sortDesc (meanOf means) levels)).lmap levels r), j < 26 := by
      intro j hj
      have hj2 := normalizeIdx_mem hj
      have hb := final_idx_bound rp _ levels r j hj2
      have hle := pass1_groups_le rp (sortDesc (meanOf means) levels)
      rw [length_sortDesc] at hle
      omega
    have hchars : List.Sorted (· < ·)
        ((normalizeIdx (pass2 rp (pass1 rp (sortDesc (meanOf means) levels)).groups
          (pass1 rp (sortDesc (meanOf means) levels)).lmap levels r)).map letterOf) := by
      apply (List.pairwise_map).mpr
      apply List.Pairwise.imp_of_mem ?_ hsl
      intro a b ha hb hab
      exact letterOf_lt_of_lt b (hbound b hb) a (hbound a ha) hab
    constructor
    · exact hchars
    · have hnd : ((normalizeIdx (pass2 rp
          (pass1 rp (sortDesc (meanOf means) levels)).groups
          (pass1 rp (sortDesc (meanOf means) levels)).lmap levels r)).map letterOf).Nodup :=
        hchars.nodup
      rw [normalizeString]
      have hdata : (renderLetters (normalizeIdx (pass2 rp
          (pass1 rp (sortDesc (meanOf means) levels)).groups
          (pass1 rp (sortDesc (meanOf means) levels)).lmap levels r))).data =
          (normalizeIdx (pass2 rp (pass1 rp (sortDesc (meanOf means) levels)).groups
            (pass1 rp (sortDesc (meanOf means) levels)).lmap levels r)).map letterOf := rfl
      rw [hdata, List.dedup_eq_self.mpr hnd]
      show String.mk _ = renderLetters _
      rw [renderLetters]
      congr 1
      apply List.Sorted.insertionSort_eq
      apply (List.pairwise_map).mpr
      apply List.Pairwise.imp_of_mem ?_ hsl
      intro a b ha hb hab
      rw [indexOf_letterOf a (hbound a ha), indexOf_letterOf b (hbound b hb)]
      omega

theorem C6_witness :
    (([1] : List Level).length ≤ 26) ∧
    (List.Sorted (· < ·) ("a" : String).data ∧ normalizeString "a" = "a") :=
  ⟨by decide,
   C6_normalized_letters [1] [(1, 0)] [] (by decide) [(1, "a")] rfl (1, "a") (by simp)⟩

/-- C10: pass 1 appends at most one new group per processed level, so the
number of letter groups never exceeds the number of levels; consequently,
for at most 26 levels every letter index used is in range and every
character of every returned letter string is a genuine lowercase letter
(the Python `ascii_lowercase` indexing cannot fail). -/
theorem C10_group_count_bound (levels : List Level) (means : Means) (rp : RejectPairs)
    (hlen : levels.length ≤ 26) :
    (pass1 rp (sortDesc (meanOf means) levels)).groups.length ≤ levels.length ∧
    ∀ out, cld_from_tukey levels means rp = Except.ok out →
      ∀ p ∈ out, ∀ c ∈ p.2.data, c ∈ asciiLowercase := by
  constructor
  · have h := pass1_groups_le rp (sortDesc (meanOf means) levels)
    rwa [length_sortDesc] at h
  · intro out hout p hp c hc
    cases hf : firstMissingMean means levels with
    | some l => simp [cld_from_tukey, hf] at hout
    | none =>
      rw [cld_ok_eq rp hf] at hout
      injection hout with hout
      subst hout
      simp only [List.mem_map] at hp
      obtain ⟨r, hr, rfl⟩ := hp
      have hc2 : c ∈ (normalizeIdx (pass2 rp
          (pass1 rp (sortDesc (meanOf means) levels)).groups
          (pass1 rp (sortDesc (meanOf means) levels)).lmap levels r)).map letterOf := hc
      rw [List.mem_map] at hc2
      obtain ⟨j, hj, rfl⟩ := hc2
      have hj2 := normalizeIdx_mem hj
      have hb := final_idx_bound rp _ levels r j hj2
      have hle := pass1_groups_le rp (sortDesc (meanOf means) levels)
      rw [length_sortDesc] at hle
      exact letterOf_mem_of_lt j (by omega)

theorem C10_witness :
    (([2, 4, 6, 8] : List Level).length ≤ 26) ∧
    ((pass1 [((2, 8), true)] (sortDesc (meanOf [(2, 1), (4, 2), (6, 3), (8, 4)])
        [2, 4, 6, 8])).groups.length ≤ ([2, 4, 6, 8] : List Level).length ∧
      ∀ out, cld_from_tukey [2, 4, 6, 8] [(2, 1), (4, 2), (6, 3), (8, 4)]
          [((2, 8), true)] = Except.ok out →
        ∀ p ∈ out, ∀ c ∈ p.2.data, c ∈ asciiLowercase) :=
  ⟨by decide,
   C10_group_count_bound [2, 4, 6, 8] [(2, 1), (4, 2), (6, 3), (8, 4)] [((2, 8), true)]
     (by decide)⟩
